import Mathlib

/-!
Shallow embedding of `search_engine.py` (class `SimpleSearchEngine`) and proofs
of the specification's claims about it.

Strings are modelled as `List Char`; Python `str.lower`/`str.upper` are
modelled per character on the ASCII range (the only range the engine's
tokenizer keeps); Python `dict` is modelled by `AList`, Python `set` by
`Finset`.  Document ids are `Int` (Python integers).
-/

set_option maxHeartbeats 1000000

abbrev Str := List Char

/-- ASCII model of Python `str.lower` on one character (maps `A`-`Z` to `a`-`z`). -/
def lowChar (c : Char) : Char :=
  if 65 ≤ c.toNat ∧ c.toNat ≤ 90 then Char.ofNat (c.toNat + 32) else c

/-- ASCII model of Python `str.upper` on one character (maps `a`-`z` to `A`-`Z`). -/
def upChar (c : Char) : Char :=
  if 97 ≤ c.toNat ∧ c.toNat ≤ 122 then Char.ofNat (c.toNat - 32) else c

def lowerStr (s : Str) : Str := s.map lowChar

def upperStr (s : Str) : Str := s.map upChar

/-- ASCII whitespace, the model of the regex class `\s` and of `str.split()` /
`str.strip()` whitespace. -/
def isWsChar (c : Char) : Bool :=
  c.toNat == 32 || c.toNat == 9 || c.toNat == 10 || c.toNat == 13 || c.toNat == 11 || c.toNat == 12

/-- Lowercase ASCII letter test: the regex class `[a-z]`. -/
def isLowerAZ (c : Char) : Bool :=
  97 ≤ c.toNat && c.toNat ≤ 122

/-- Model of Python `str.strip()`. -/
def stripStr (s : Str) : Str :=
  ((s.dropWhile isWsChar).reverse.dropWhile isWsChar).reverse

/-- Accumulator-based whitespace splitting; `cur` holds the current in-progress
token in reverse.  Models Python `str.split()` (no separator argument). -/
def splitWsAux : Str → Str → List Str
  | [], cur => if cur = [] then [] else [cur.reverse]
  | c :: rest, cur =>
    if isWsChar c then
      if cur = [] then splitWsAux rest [] else cur.reverse :: splitWsAux rest []
    else splitWsAux rest (c :: cur)

def splitWs (s : Str) : List Str := splitWsAux s []

/-- `self._tokenize` from `search_engine.py`:
`text = re.sub(r'[^a-z\s]', '', text.lower()); return text.split()`. -/
def tokenize (text : Str) : List Str :=
  splitWs ((lowerStr text).filter (fun c => isLowerAZ c || isWsChar c))

/-- `leadsWith p s` holds when the list `p` occurs at the head of `s`. -/
def leadsWith : Str → Str → Bool
  | [], _ => true
  | _ :: _, [] => false
  | a :: as, b :: bs => a == b && leadsWith as bs

/-- Model of the Python substring test `sep in s`. -/
def hasSub (sep : Str) : Str → Bool
  | [] => leadsWith sep []
  | c :: rest => leadsWith sep (c :: rest) || hasSub sep rest

/-- Model of Python `s.split(sep)` for a non-empty separator; `cur` holds the
current segment in reverse.  Structural recursion on a fuel argument (the fuel
never runs out when it starts at `s.length + 1`, since every step shortens
`s`). -/
def splitSepAux (sep : Str) : Nat → Str → Str → List Str
  | 0, s, cur => [cur.reverse ++ s]
  | _ + 1, [], cur => [cur.reverse]
  | fuel + 1, c :: rest, cur =>
    if sep ≠ [] ∧ leadsWith sep (c :: rest) then
      cur.reverse :: splitSepAux sep fuel ((c :: rest).drop sep.length) []
    else
      splitSepAux sep fuel rest (c :: cur)

def splitSep (sep : Str) (s : Str) : List Str := splitSepAux sep (s.length + 1) s []

/-- The engine state: `documents`, `inverted_index` and `next_doc_id` from
`SimpleSearchEngine.__init__`. -/
structure Engine where
  documents : AList (fun _ : Int => Str)
  inverted_index : AList (fun _ : Str => Finset Int)
  next_doc_id : Int
deriving DecidableEq

/-- The freshly constructed engine. -/
def emptyEngine : Engine := ⟨∅, ∅, 0⟩

/-- View of a posting set: `self.inverted_index.get(t, set())`. -/
def pview (idx : AList (fun _ : Str => Finset Int)) (t : Str) : Finset Int :=
  (idx.lookup t).getD ∅

/-- The indexing loop of `add_document`: for each token insert `d` into that
token's posting set, creating the posting set when absent. -/
def addTokens (d : Int) (toks : List Str) (idx : AList (fun _ : Str => Finset Int)) :
    AList (fun _ : Str => Finset Int) :=
  toks.foldl (fun acc t => acc.insert t (insert d (pview acc t))) idx

/-- One step of the deletion loop of `delete_document`: discard `d` from the
token's posting set and drop the entry when the set becomes empty. -/
def removeToken (d : Int) (idx : AList (fun _ : Str => Finset Int)) (t : Str) :
    AList (fun _ : Str => Finset Int) :=
  if t ∈ idx then
    if (pview idx t).erase d = ∅ then idx.erase t else idx.insert t ((pview idx t).erase d)
  else idx

/-- `SimpleSearchEngine.delete_document`.  `pop` both returns the stored text
and removes the store entry; the `getD` default is never reached because the
branch requires `d ∈ e.documents`. -/
def delete_document (e : Engine) (d : Int) : Bool × Engine :=
  if d ∈ e.documents then
    let text := (e.documents.lookup d).getD []
    (true,
      { e with
        documents := e.documents.erase d
        inverted_index :=
          ((tokenize text).dedup).foldl (fun acc t => removeToken d acc t) e.inverted_index })
  else (false, e)

/-- `SimpleSearchEngine.add_document`.  Returns the used id and the new state. -/
def add_document (e : Engine) (text : Str) (docId : Option Int) : Int × Engine :=
  let p : Int × Engine :=
    match docId with
    | none => (e.next_doc_id, { e with next_doc_id := e.next_doc_id + 1 })
    | some d => (d, e)
  let d := p.1
  let e1 := p.2
  let e2 := if d ∈ e1.documents then (delete_document e1 d).2 else e1
  (d,
    { e2 with
      documents := e2.documents.insert d text
      inverted_index := addTokens d ((tokenize text).dedup) e2.inverted_index })

/-- The boolean operator selected by `search`. -/
inductive BoolOp where
  | AND : BoolOp
  | OR : BoolOp
deriving DecidableEq

def sepAND : Str := [' ', 'A', 'N', 'D', ' ']

def sepOR : Str := [' ', 'O', 'R', ' ']

/-- Operator detection and term extraction of `search` (lines 80-91):
`query = query.strip().upper()` and then the `" AND "` / `" OR "` /
tokenize cascade.  Both the substring test and the split act on the
stripped-and-uppercased query. -/
def detect (q : Str) : BoolOp × List Str :=
  let uq := upperStr (stripStr q)
  if hasSub sepAND uq then
    (BoolOp.AND, (splitSep sepAND uq).map (fun t => lowerStr (stripStr t)))
  else if hasSub sepOR uq then
    (BoolOp.OR, (splitSep sepOR uq).map (fun t => lowerStr (stripStr t)))
  else
    (BoolOp.AND, tokenize uq)

/-- Result-set evaluation of `search` (lines 96-111): start from a copy of the
first term's posting set, then intersect (AND) or union (OR) with each
subsequent term's posting set. -/
def evalQuery (e : Engine) (op : BoolOp) (terms : List Str) : Finset Int :=
  match terms with
  | [] => ∅
  | t0 :: rest =>
    match op with
    | BoolOp.AND => rest.foldl (fun acc t => acc ∩ pview e.inverted_index t) (pview e.inverted_index t0)
    | BoolOp.OR => rest.foldl (fun acc t => acc ∪ pview e.inverted_index t) (pview e.inverted_index t0)

/-- `SimpleSearchEngine.search`.  The result is the `found_documents` mapping
(as a function from id to optional text); the second component is the engine
state after the call (the method body never assigns to any field of `self`,
and the first posting set is copied before the in-place set operations). -/
def search (e : Engine) (q : Str) : (Int → Option Str) × Engine :=
  let op := (detect q).1
  let terms := (detect q).2
  if terms = [] then (fun _ => none, e)
  else
    let rs := evalQuery e op terms
    (fun d => if d ∈ rs then e.documents.lookup d else none, e)

/-- Reachable engine states: everything obtainable from a fresh engine by the
three public operations. -/
inductive Reachable : Engine → Prop where
  | init : Reachable emptyEngine
  | addStep : ∀ {e : Engine} (text : Str) (i : Option Int),
      Reachable e → Reachable (add_document e text i).2
  | delStep : ∀ {e : Engine} (d : Int),
      Reachable e → Reachable (delete_document e d).2
  | searchStep : ∀ {e : Engine} (q : Str),
      Reachable e → Reachable (search e q).2

/-! ### Character-level lemmas -/

theorem toNat_ofNat_small {n : Nat} (h : n < 55296) : (Char.ofNat n).toNat = n := by
  have hv : n.isValidChar := Or.inl h
  unfold Char.ofNat
  rw [dif_pos hv]
  rfl

theorem upChar_toNat {c : Char} (h : 97 ≤ c.toNat ∧ c.toNat ≤ 122) :
    (upChar c).toNat = c.toNat - 32 := by
  unfold upChar
  rw [if_pos h]
  exact toNat_ofNat_small (by omega)

theorem lowChar_upChar {c : Char} (h : 97 ≤ c.toNat ∧ c.toNat ≤ 122) :
    lowChar (upChar c) = c := by
  have h1 := upChar_toNat h
  unfold lowChar
  rw [if_pos (by omega)]
  rw [h1]
  have h2 : c.toNat - 32 + 32 = c.toNat := by omega
  rw [h2, Char.ofNat_toNat]

theorem isLowerAZ_iff {c : Char} : isLowerAZ c = true ↔ 97 ≤ c.toNat ∧ c.toNat ≤ 122 := by
  simp [isLowerAZ]

theorem isWsChar_iff {c : Char} :
    isWsChar c = true ↔
      c.toNat = 32 ∨ c.toNat = 9 ∨ c.toNat = 10 ∨ c.toNat = 13 ∨ c.toNat = 11 ∨ c.toNat = 12 := by
  simp [isWsChar]
  tauto

theorem lowerAZ_not_ws {c : Char} (h : isLowerAZ c = true) : isWsChar c = false := by
  rw [isLowerAZ_iff] at h
  by_contra hc
  rw [Bool.not_eq_false, isWsChar_iff] at hc
  omega

theorem upChar_not_ws {c : Char} (h : 97 ≤ c.toNat ∧ c.toNat ≤ 122) :
    isWsChar (upChar c) = false := by
  have h1 := upChar_toNat h
  by_contra hc
  rw [Bool.not_eq_false, isWsChar_iff] at hc
  omega

/-! ### Tokenizer lemmas -/

theorem dropWhile_all_false {p : Char → Bool} :
    ∀ {l : Str}, (∀ c ∈ l, p c = false) → l.dropWhile p = l := by
  intro l h
  cases l with
  | nil => rfl
  | cons c rest =>
    rw [List.dropWhile_cons, h c (List.mem_cons_self c rest)]
    simp

theorem stripStr_no_ws {w : Str} (h : ∀ c ∈ w, isWsChar c = false) : stripStr w = w := by
  unfold stripStr
  rw [dropWhile_all_false h,
    dropWhile_all_false (fun c hc => h c (List.mem_reverse.mp hc)), List.reverse_reverse]

theorem map_self_of_mem {f : Char → Char} :
    ∀ {l : Str}, (∀ c ∈ l, f c = c) → l.map f = l := by
  intro l h
  induction l with
  | nil => rfl
  | cons c rest ih =>
    rw [List.map_cons, h c (List.mem_cons_self c rest),
      ih (fun x hx => h x (List.mem_cons_of_mem c hx))]

theorem splitWsAux_shape {P : Char → Prop} :
    ∀ (s cur : Str), (∀ c ∈ s, isWsChar c = false → P c) → (∀ c ∈ cur, P c) →
      ∀ t ∈ splitWsAux s cur, t ≠ [] ∧ ∀ c ∈ t, P c := by
  intro s
  induction s with
  | nil =>
    intro cur _ hcur t ht
    unfold splitWsAux at ht
    split at ht
    · simp at ht
    · rename_i hne
      rw [List.mem_singleton] at ht
      subst ht
      refine ⟨by simpa using hne, fun c hc => hcur c (List.mem_reverse.mp hc)⟩
  | cons c rest ih =>
    intro cur hs hcur t ht
    unfold splitWsAux at ht
    by_cases hws : isWsChar c
    · rw [if_pos hws] at ht
      split at ht
      · exact ih [] (fun x hx h2 => hs x (List.mem_cons_of_mem c hx) h2) (by simp) t ht
      · rename_i hne
        rw [List.mem_cons] at ht
        rcases ht with ht | ht
        · subst ht
          refine ⟨by simpa using hne, fun x hx => hcur x (List.mem_reverse.mp hx)⟩
        · exact ih [] (fun x hx h2 => hs x (List.mem_cons_of_mem c hx) h2) (by simp) t ht
    · rw [if_neg hws] at ht
      refine ih (c :: cur) (fun x hx h2 => hs x (List.mem_cons_of_mem c hx) h2) ?_ t ht
      intro x hx
      rw [List.mem_cons] at hx
      rcases hx with hx | hx
      · subst hx
        exact hs x (List.mem_cons_self x rest) (by simpa using hws)
      · exact hcur x hx

theorem splitWsAux_no_ws :
    ∀ (s cur : Str), ¬(s = [] ∧ cur = []) → (∀ c ∈ s, isWsChar c = false) →
      splitWsAux s cur = [cur.reverse ++ s] := by
  intro s
  induction s with
  | nil =>
    intro cur hne _
    have hcur : cur ≠ [] := fun h => hne ⟨rfl, h⟩
    unfold splitWsAux
    rw [if_neg hcur]
    simp
  | cons c rest ih =>
    intro cur _ hs
    unfold splitWsAux
    rw [if_neg (by simpa using hs c (List.mem_cons_self c rest))]
    rw [ih (c :: cur) (by simp) (fun x hx => hs x (List.mem_cons_of_mem c hx))]
    simp

theorem splitWs_single {s : Str} (h0 : s ≠ []) (h : ∀ c ∈ s, isWsChar c = false) :
    splitWs s = [s] := by
  unfold splitWs
  rw [splitWsAux_no_ws s [] (fun hc => h0 hc.1) h]
  simp

theorem tokenize_shape {t text : Str} (ht : t ∈ tokenize text) :
    t ≠ [] ∧ ∀ c ∈ t, isLowerAZ c = true := by
  unfold tokenize splitWs at ht
  refine splitWsAux_shape _ [] ?_ (by simp) t ht
  intro c hc hws
  rw [List.mem_filter] at hc
  rcases Bool.or_eq_true_iff.mp hc.2 with h1 | h1
  · exact h1
  · rw [h1] at hws
    cases hws

/-! ### Query-parsing lemmas -/

theorem leadsWith_mem : ∀ {p s : Str}, leadsWith p s = true → ∀ c ∈ p, c ∈ s := by
  intro p
  induction p with
  | nil => intro s _ c hc; cases hc
  | cons a as ih =>
    intro s hl c hc
    cases s with
    | nil => cases hl
    | cons b bs =>
      unfold leadsWith at hl
      rw [Bool.and_eq_true] at hl
      have hab : a = b := by simpa using hl.1
      rw [List.mem_cons] at hc
      rcases hc with hc | hc
      · subst hc; rw [hab]; exact List.mem_cons_self b bs
      · exact List.mem_cons_of_mem b (ih hl.2 c hc)

theorem hasSub_mem : ∀ {sep s : Str}, hasSub sep s = true → ∀ c ∈ sep, c ∈ s := by
  intro sep s
  induction s with
  | nil =>
    intro h c hc
    unfold hasSub at h
    cases sep with
    | nil => cases hc
    | cons a as => cases h
  | cons b bs ih =>
    intro h c hc
    unfold hasSub at h
    rcases Bool.or_eq_true_iff.mp h with h1 | h1
    · exact leadsWith_mem h1 c hc
    · exact List.mem_cons_of_mem b (ih h1 c hc)

theorem no_space_no_sepAND {w : Str} (h : ∀ c ∈ w, isLowerAZ c = true) :
    hasSub sepAND (upperStr w) = false := by
  by_contra hc
  rw [Bool.not_eq_false] at hc
  have hsp : (' ' : Char) ∈ upperStr w := hasSub_mem hc ' ' (by simp [sepAND])
  rw [upperStr, List.mem_map] at hsp
  obtain ⟨c, hcw, hcu⟩ := hsp
  have hb := isLowerAZ_iff.mp (h c hcw)
  have h1 := upChar_toNat hb
  rw [hcu] at h1
  simp at h1
  omega

theorem no_space_no_sepOR {w : Str} (h : ∀ c ∈ w, isLowerAZ c = true) :
    hasSub sepOR (upperStr w) = false := by
  by_contra hc
  rw [Bool.not_eq_false] at hc
  have hsp : (' ' : Char) ∈ upperStr w := hasSub_mem hc ' ' (by simp [sepOR])
  rw [upperStr, List.mem_map] at hsp
  obtain ⟨c, hcw, hcu⟩ := hsp
  have hb := isLowerAZ_iff.mp (h c hcw)
  have h1 := upChar_toNat hb
  rw [hcu] at h1
  simp at h1
  omega

theorem tokenize_upperStr_token {w : Str} (h0 : w ≠ []) (h : ∀ c ∈ w, isLowerAZ c = true) :
    tokenize (upperStr w) = [w] := by
  unfold tokenize
  have hlow : lowerStr (upperStr w) = w := by
    unfold lowerStr upperStr
    rw [List.map_map]
    exact map_self_of_mem (fun c hc => lowChar_upChar (isLowerAZ_iff.mp (h c hc)))
  rw [hlow]
  rw [List.filter_eq_self.mpr (fun c hc => by rw [h c hc]; rfl)]
  exact splitWs_single h0 (fun c hc => lowerAZ_not_ws (h c hc))

/-- On a single already-normalized token, `search`'s query parsing selects the
implicit-AND branch and tokenizes the query back to that very token. -/
theorem detect_token {w : Str} (h0 : w ≠ []) (h : ∀ c ∈ w, isLowerAZ c = true) :
    detect w = (BoolOp.AND, [w]) := by
  have hstrip : stripStr w = w := stripStr_no_ws (fun c hc => lowerAZ_not_ws (h c hc))
  simp only [detect, hstrip, no_space_no_sepAND h, no_space_no_sepOR h]
  simp [tokenize_upperStr_token h0 h]

/-! ### Index-maintenance lemmas -/

theorem pview_insert_self (idx : AList (fun _ : Str => Finset Int)) (t : Str) (s : Finset Int) :
    pview (idx.insert t s) t = s := by
  simp [pview, AList.lookup_insert]

theorem pview_insert_ne (idx : AList (fun _ : Str => Finset Int)) {t t' : Str} (s : Finset Int)
    (h : t' ≠ t) : pview (idx.insert t s) t' = pview idx t' := by
  simp [pview, AList.lookup_insert_ne h]

theorem pview_erase_self (idx : AList (fun _ : Str => Finset Int)) (t : Str) :
    pview (idx.erase t) t = ∅ := by
  simp [pview, AList.lookup_erase]

theorem pview_erase_ne (idx : AList (fun _ : Str => Finset Int)) {t t' : Str} (h : t' ≠ t) :
    pview (idx.erase t) t' = pview idx t' := by
  simp [pview, AList.lookup_erase_ne h]

theorem pview_removeToken (d : Int) (idx : AList (fun _ : Str => Finset Int)) (t0 t : Str) :
    pview (removeToken d idx t0) t = if t = t0 then (pview idx t).erase d else pview idx t := by
  unfold removeToken
  by_cases hm : t0 ∈ idx
  · rw [if_pos hm]
    by_cases he : (pview idx t0).erase d = ∅
    · rw [if_pos he]
      by_cases h : t = t0
      · subst h; rw [if_pos rfl, pview_erase_self, he]
      · rw [if_neg h, pview_erase_ne idx h]
    · rw [if_neg he]
      by_cases h : t = t0
      · subst h; rw [if_pos rfl, pview_insert_self]
      · rw [if_neg h, pview_insert_ne idx _ h]
  · rw [if_neg hm]
    by_cases h : t = t0
    · subst h
      have hp : pview idx t = ∅ := by
        simp [pview, AList.lookup_eq_none.mpr hm]
      rw [if_pos rfl, hp, Finset.erase_empty]
    · rw [if_neg h]

theorem pview_removeList (d : Int) (toks : List Str) (idx : AList (fun _ : Str => Finset Int))
    (t : Str) :
    pview (toks.foldl (fun acc x => removeToken d acc x) idx) t =
      if t ∈ toks then (pview idx t).erase d else pview idx t := by
  induction toks generalizing idx with
  | nil => simp
  | cons t0 rest ih =>
    rw [List.foldl_cons, ih]
    rw [pview_removeToken]
    by_cases h0 : t = t0
    · subst h0
      by_cases h1 : t ∈ rest
      · rw [if_pos h1, if_pos rfl, if_pos (List.mem_cons_self t rest), Finset.erase_idem]
      · rw [if_neg h1, if_pos rfl, if_pos (List.mem_cons_self t rest)]
    · by_cases h1 : t ∈ rest
      · rw [if_pos h1, if_neg h0, if_pos (List.mem_cons_of_mem t0 h1)]
      · rw [if_neg h1, if_neg h0, if_neg (by simp [List.mem_cons, h0, h1])]

theorem removeToken_nonempty {d : Int} {idx : AList (fun _ : Str => Finset Int)} {t0 : Str}
    (h : ∀ t s, idx.lookup t = some s → s ≠ ∅) :
    ∀ t s, (removeToken d idx t0).lookup t = some s → s ≠ ∅ := by
  intro t s hs
  unfold removeToken at hs
  by_cases hm : t0 ∈ idx
  · rw [if_pos hm] at hs
    by_cases he : (pview idx t0).erase d = ∅
    · rw [if_pos he] at hs
      by_cases ht : t = t0
      · subst ht; rw [AList.lookup_erase] at hs; cases hs
      · rw [AList.lookup_erase_ne ht] at hs; exact h t s hs
    · rw [if_neg he] at hs
      by_cases ht : t = t0
      · subst ht; rw [AList.lookup_insert] at hs
        cases hs; exact he
      · rw [AList.lookup_insert_ne ht] at hs; exact h t s hs
  · rw [if_neg hm] at hs; exact h t s hs

theorem removeList_nonempty {d : Int} {toks : List Str}
    {idx : AList (fun _ : Str => Finset Int)}
    (h : ∀ t s, idx.lookup t = some s → s ≠ ∅) :
    ∀ t s, (toks.foldl (fun acc x => removeToken d acc x) idx).lookup t = some s → s ≠ ∅ := by
  induction toks generalizing idx with
  | nil => exact h
  | cons t0 rest ih => exact ih (removeToken_nonempty h)

theorem removeToken_keys {d : Int} {idx : AList (fun _ : Str => Finset Int)} {t0 t : Str}
    (h : t ∈ removeToken d idx t0) : t ∈ idx := by
  unfold removeToken at h
  by_cases hm : t0 ∈ idx
  · rw [if_pos hm] at h
    by_cases he : (pview idx t0).erase d = ∅
    · rw [if_pos he] at h
      exact (AList.mem_erase.mp h).2
    · rw [if_neg he] at h
      rcases (AList.mem_insert _).mp h with h1 | h1
      · rw [h1]; exact hm
      · exact h1
  · rw [if_neg hm] at h; exact h

theorem removeList_keys {d : Int} {toks : List Str} {idx : AList (fun _ : Str => Finset Int)}
    {t : Str}
    (h : t ∈ toks.foldl (fun acc x => removeToken d acc x) idx) : t ∈ idx := by
  induction toks generalizing idx with
  | nil => exact h
  | cons t0 rest ih => exact removeToken_keys (ih h)

theorem pview_addTokens (d : Int) (toks : List Str) (idx : AList (fun _ : Str => Finset Int))
    (t : Str) :
    pview (addTokens d toks idx) t = if t ∈ toks then insert d (pview idx t) else pview idx t := by
  induction toks generalizing idx with
  | nil => simp [addTokens]
  | cons t0 rest ih =>
    unfold addTokens
    rw [List.foldl_cons]
    have := ih (idx.insert t0 (insert d (pview idx t0)))
    unfold addTokens at this
    rw [this]
    by_cases h0 : t = t0
    · subst h0
      by_cases h1 : t ∈ rest
      · rw [if_pos h1, pview_insert_self, Finset.insert_idem, if_pos (List.mem_cons_self t rest)]
      · rw [if_neg h1, pview_insert_self, if_pos (List.mem_cons_self t rest)]
    · by_cases h1 : t ∈ rest
      · rw [if_pos h1, pview_insert_ne idx _ h0, if_pos (List.mem_cons_of_mem t0 h1)]
      · rw [if_neg h1, pview_insert_ne idx _ h0, if_neg (by simp [List.mem_cons, h0, h1])]

theorem addTokens_nonempty {d : Int} {toks : List Str} {idx : AList (fun _ : Str => Finset Int)}
    (h : ∀ t s, idx.lookup t = some s → s ≠ ∅) :
    ∀ t s, (addTokens d toks idx).lookup t = some s → s ≠ ∅ := by
  induction toks generalizing idx with
  | nil => exact h
  | cons t0 rest ih =>
    unfold addTokens
    rw [List.foldl_cons]
    refine ih ?_
    intro t s hs
    by_cases ht : t = t0
    · subst ht
      rw [AList.lookup_insert] at hs
      cases hs
      exact Finset.insert_ne_empty _ _
    · rw [AList.lookup_insert_ne ht] at hs
      exact h t s hs

theorem addTokens_keys {d : Int} {toks : List Str} {idx : AList (fun _ : Str => Finset Int)}
    {t : Str}
    (h : t ∈ addTokens d toks idx) : t ∈ idx ∨ t ∈ toks := by
  induction toks generalizing idx with
  | nil => exact Or.inl h
  | cons t0 rest ih =>
    have h9 : t ∈ addTokens d rest (idx.insert t0 (insert d (pview idx t0))) := by
      unfold addTokens at h ⊢
      rw [List.foldl_cons] at h
      exact h
    rcases ih h9 with h1 | h1
    · rcases (AList.mem_insert _).mp h1 with h2 | h2
      · exact Or.inr (by rw [h2]; exact List.mem_cons_self t0 rest)
      · exact Or.inl h2
    · exact Or.inr (List.mem_cons_of_mem t0 h1)

/-! ### The state invariant and its preservation -/

/-- Invariants I1, I2 and the key-shape property of the spec, over the two
core maps. -/
def InvP (docs : AList (fun _ : Int => Str)) (idx : AList (fun _ : Str => Finset Int)) : Prop :=
  (∀ t d, d ∈ pview idx t ↔ ∃ txt, docs.lookup d = some txt ∧ t ∈ tokenize txt) ∧
  (∀ t s, idx.lookup t = some s → s ≠ ∅) ∧
  (∀ t, t ∈ idx → t ≠ [] ∧ ∀ c ∈ t, isLowerAZ c = true)

def EngineInv (e : Engine) : Prop := InvP e.documents e.inverted_index

theorem delete_core {docs : AList (fun _ : Int => Str)}
    {idx : AList (fun _ : Str => Finset Int)} {d : Int} {txt : Str}
    (h : InvP docs idx) (hl : docs.lookup d = some txt) :
    InvP (docs.erase d)
      (((tokenize txt).dedup).foldl (fun acc t => removeToken d acc t) idx) := by
  refine ⟨?_, removeList_nonempty h.2.1, ?_⟩
  · intro t d'
    rw [pview_removeList]
    by_cases hdd : d' = d
    · subst hdd
      rw [AList.lookup_erase]
      by_cases htk : t ∈ (tokenize txt).dedup
      · rw [if_pos htk]
        simp
      · rw [if_neg htk]
        constructor
        · intro hmem
          obtain ⟨txt', hl', htok'⟩ := (h.1 t d').mp hmem
          rw [hl] at hl'
          cases hl'
          exact absurd (List.mem_dedup.mpr htok') htk
        · rintro ⟨txt', heq, _⟩
          cases heq
    · rw [AList.lookup_erase_ne hdd]
      by_cases htk : t ∈ (tokenize txt).dedup
      · rw [if_pos htk, Finset.mem_erase]
        constructor
        · intro hmem
          exact (h.1 t d').mp hmem.2
        · intro hex
          exact ⟨hdd, (h.1 t d').mpr hex⟩
      · rw [if_neg htk]
        exact h.1 t d'
  · intro t ht
    exact h.2.2 t (removeList_keys ht)

theorem add_core {docs : AList (fun _ : Int => Str)}
    {idx : AList (fun _ : Str => Finset Int)} {d : Int} {txt : Str}
    (h : InvP docs idx) (hl : docs.lookup d = none) :
    InvP (docs.insert d txt) (addTokens d ((tokenize txt).dedup) idx) := by
  refine ⟨?_, addTokens_nonempty h.2.1, ?_⟩
  · intro t d'
    rw [pview_addTokens]
    by_cases hdd : d' = d
    · subst hdd
      rw [AList.lookup_insert]
      by_cases htk : t ∈ (tokenize txt).dedup
      · rw [if_pos htk]
        constructor
        · intro _
          exact ⟨txt, rfl, List.mem_dedup.mp htk⟩
        · intro _
          exact Finset.mem_insert_self _ _
      · rw [if_neg htk]
        constructor
        · intro hmem
          obtain ⟨txt', hl', _⟩ := (h.1 t d').mp hmem
          rw [hl] at hl'
          cases hl'
        · rintro ⟨txt', heq, htok⟩
          cases heq
          exact absurd (List.mem_dedup.mpr htok) htk
    · rw [AList.lookup_insert_ne hdd]
      by_cases htk : t ∈ (tokenize txt).dedup
      · rw [if_pos htk, Finset.mem_insert]
        constructor
        · rintro (h1 | h1)
          · exact absurd h1 hdd
          · exact (h.1 t d').mp h1
        · intro h1
          exact Or.inr ((h.1 t d').mpr h1)
      · rw [if_neg htk]
        exact h.1 t d'
  · intro t ht
    rcases addTokens_keys ht with h1 | h1
    · exact h.2.2 t h1
    · exact tokenize_shape (List.mem_dedup.mp h1)

theorem delete_lookup_self (e : Engine) (d : Int) :
    (delete_document e d).2.documents.lookup d = none := by
  unfold delete_document
  by_cases hm : d ∈ e.documents
  · rw [if_pos hm]
    exact AList.lookup_erase d e.documents
  · rw [if_neg hm]
    exact AList.lookup_eq_none.mpr hm

theorem delete_inv (e : Engine) (d : Int) (h : EngineInv e) : EngineInv (delete_document e d).2 := by
  unfold delete_document
  by_cases hm : d ∈ e.documents
  · obtain ⟨txt, hl⟩ := Option.isSome_iff_exists.mp (AList.lookup_isSome.mpr hm)
    rw [if_pos hm]
    show InvP (e.documents.erase d)
      (((tokenize ((e.documents.lookup d).getD [])).dedup).foldl
        (fun acc t => removeToken d acc t) e.inverted_index)
    rw [hl]
    exact delete_core h hl
  · rw [if_neg hm]
    exact h

theorem add_inv (e : Engine) (text : Str) (i : Option Int) (h : EngineInv e) :
    EngineInv (add_document e text i).2 := by
  cases i with
  | none =>
    show EngineInv (add_document e text none).2
    unfold add_document
    by_cases hm : e.next_doc_id ∈ e.documents
    · simp only [if_pos hm]
      have h1 : EngineInv { e with next_doc_id := e.next_doc_id + 1 } := h
      exact add_core (delete_inv _ _ h1) (delete_lookup_self _ _)
    · simp only [if_neg hm]
      exact add_core h (AList.lookup_eq_none.mpr hm)
  | some d =>
    show EngineInv (add_document e text (some d)).2
    unfold add_document
    by_cases hm : d ∈ e.documents
    · simp only [if_pos hm]
      exact add_core (delete_inv _ _ h) (delete_lookup_self _ _)
    · simp only [if_neg hm]
      exact add_core h (AList.lookup_eq_none.mpr hm)

theorem search_state (e : Engine) (q : Str) : (search e q).2 = e := by
  unfold search
  dsimp only
  split
  · rfl
  · rfl

theorem reachable_inv : ∀ {e : Engine}, Reachable e → EngineInv e := by
  intro e h
  induction h with
  | init =>
    refine ⟨?_, ?_, ?_⟩
    · intro t d
      simp [pview, emptyEngine, AList.lookup_empty]
    · intro t s hs
      rw [show emptyEngine.inverted_index = ∅ from rfl, AList.lookup_empty] at hs
      cases hs
    · intro t ht
      exact absurd ht (AList.not_mem_empty t)
  | addStep text i hr ih => exact add_inv _ text i ih
  | delStep d hr ih => exact delete_inv _ d ih
  | searchStep q hr ih =>
    rw [search_state]
    exact ih

/-! ### Supporting lemmas for the claims -/

theorem delete_next_id (e : Engine) (d : Int) :
    (delete_document e d).2.next_doc_id = e.next_doc_id := by
  unfold delete_document
  split
  · rfl
  · rfl

theorem add_lookup_self (e : Engine) (txt : Str) (D : Int) :
    (add_document e txt (some D)).2.documents.lookup D = some txt := by
  show AList.lookup D (AList.insert D txt
    ((if D ∈ e.documents then (delete_document e D).2 else e).documents)) = some txt
  exact AList.lookup_insert _

theorem add_pview_token (e : Engine) (txt : Str) (D : Int) {w : Str} (hw : w ∈ tokenize txt) :
    D ∈ pview (add_document e txt (some D)).2.inverted_index w := by
  show D ∈ pview (addTokens D ((tokenize txt).dedup)
    ((if D ∈ e.documents then (delete_document e D).2 else e).inverted_index)) w
  rw [pview_addTokens, if_pos (List.mem_dedup.mpr hw)]
  exact Finset.mem_insert_self _ _

theorem delete_pview (e : Engine) (d : Int) (txt : Str)
    (hl : e.documents.lookup d = some txt) (t : Str) :
    pview (delete_document e d).2.inverted_index t =
      if t ∈ tokenize txt then (pview e.inverted_index t).erase d
      else pview e.inverted_index t := by
  have hm : d ∈ e.documents := by
    rw [← AList.lookup_isSome, hl]
    rfl
  unfold delete_document
  rw [if_pos hm]
  show pview (((tokenize ((e.documents.lookup d).getD [])).dedup).foldl
    (fun acc t => removeToken d acc t) e.inverted_index) t = _
  rw [hl]
  show pview (((tokenize txt).dedup).foldl
    (fun acc t => removeToken d acc t) e.inverted_index) t = _
  rw [pview_removeList]
  by_cases htk : t ∈ tokenize txt
  · rw [if_pos (List.mem_dedup.mpr htk), if_pos htk]
  · rw [if_neg (fun hc => htk (List.mem_dedup.mp hc)), if_neg htk]

theorem foldl_inter_sub (e : Engine) :
    ∀ (rest : List Str) (init : Finset Int),
      rest.foldl (fun acc t => acc ∩ pview e.inverted_index t) init ⊆ init := by
  intro rest
  induction rest with
  | nil => intro init; exact Finset.Subset.refl _
  | cons t0 r ih =>
    intro init
    rw [List.foldl_cons]
    exact (ih _).trans Finset.inter_subset_left

theorem foldl_union_sup (e : Engine) :
    ∀ (rest : List Str) (init : Finset Int),
      init ⊆ rest.foldl (fun acc t => acc ∪ pview e.inverted_index t) init := by
  intro rest
  induction rest with
  | nil => intro init; exact Finset.Subset.refl _
  | cons t0 r ih =>
    intro init
    rw [List.foldl_cons]
    exact Finset.subset_union_left.trans (ih _)

/-! ### The claims -/

/-- C1 (counterexample): the claim predicts that for the query `"dog and cat"`
the engine splits the ORIGINAL query on `" AND "` (yielding the single literal
term `"dog and cat"`); the code instead splits the stripped-and-uppercased
query, so the extracted terms differ from the claim's prediction. -/
theorem lowercase_and_splits_cex :
    (detect (['d', 'o', 'g', ' ', 'a', 'n', 'd', ' ', 'c', 'a', 't'] : Str)).2 ≠
      [lowerStr (stripStr (['d', 'o', 'g', ' ', 'a', 'n', 'd', ' ', 'c', 'a', 't'] : Str))] := by
  decide

/-- C1 (amended): when `" AND "` occurs in the trimmed UPPERCASED query,
`search` splits that trimmed-uppercased query (not the original query) on the
separator and uses each segment, trimmed and lowercased, as one literal atomic
term; likewise for `" OR "` when `" AND "` is absent.  Consequently the query
`"dog and cat"` (lowercase operator) yields the two terms `"dog"` and `"cat"`,
not a single literal term. -/
theorem explicit_op_split (q : Str) :
    (hasSub sepAND (upperStr (stripStr q)) = true →
      detect q = (BoolOp.AND, (splitSep sepAND (upperStr (stripStr q))).map
        (fun t => lowerStr (stripStr t)))) ∧
    (hasSub sepAND (upperStr (stripStr q)) = false →
      hasSub sepOR (upperStr (stripStr q)) = true →
      detect q = (BoolOp.OR, (splitSep sepOR (upperStr (stripStr q))).map
        (fun t => lowerStr (stripStr t)))) ∧
    detect (['d', 'o', 'g', ' ', 'a', 'n', 'd', ' ', 'c', 'a', 't'] : Str) =
      (BoolOp.AND, [['d', 'o', 'g'], ['c', 'a', 't']]) := by
  refine ⟨?_, ?_, by decide⟩
  · intro h
    simp [detect, h]
  · intro h1 h2
    simp [detect, h1, h2]

/-- C1 (witness for the amended theorem): a concrete query containing
`" AND "` is split as the amended claim states. -/
theorem explicit_op_split_witness :
    detect ([' ', 'x', ' ', 'A', 'N', 'D', ' ', 'y'] : Str) =
      (BoolOp.AND, (splitSep sepAND (upperStr (stripStr
        ([' ', 'x', ' ', 'A', 'N', 'D', ' ', 'y'] : Str)))).map
        (fun t => lowerStr (stripStr t))) :=
  (explicit_op_split _).1 (by decide)

/-- C2 (counterexample): after `add_document("a", doc_id=0)` the auto-increment
counter is still 0, so the next auto-assigned ID is 0, which is already a key
of the Document Store at the moment of assignment. -/
theorem auto_id_collision_cex :
    (add_document (add_document emptyEngine (['a'] : Str) (some 0)).2 (['b'] : Str) none).1 = 0 ∧
    (0 : Int) ∈ (add_document emptyEngine (['a'] : Str) (some 0)).2.documents := by
  decide

/-- C2 (amended): the auto-increment counter only increases and is the value
handed out by an auto-ID add (which bumps it by one); explicit-ID adds,
deletes and searches never change it.  An auto-generated ID can therefore
collide with a previously used explicit ID (the counter is not advanced past
explicit IDs), in which case the add proceeds as the documented replace. -/
theorem next_doc_id_behavior (e : Engine) (t t2 : Str) (i d : Int) (q : Str) :
    (add_document e t none).1 = e.next_doc_id ∧
    (add_document e t none).2.next_doc_id = e.next_doc_id + 1 ∧
    (add_document e t2 (some i)).2.next_doc_id = e.next_doc_id ∧
    (delete_document e d).2.next_doc_id = e.next_doc_id ∧
    (search e q).2.next_doc_id = e.next_doc_id := by
  refine ⟨rfl, ?_, ?_, delete_next_id e d, by rw [search_state]⟩
  · show (if e.next_doc_id ∈ e.documents
        then (delete_document { e with next_doc_id := e.next_doc_id + 1 } e.next_doc_id).2
        else { e with next_doc_id := e.next_doc_id + 1 }).next_doc_id = e.next_doc_id + 1
    split
    · rw [delete_next_id]
    · rfl
  · show (if i ∈ e.documents then (delete_document e i).2 else e).next_doc_id = e.next_doc_id
    split
    · rw [delete_next_id]
    · rfl

/-- C3: in every reachable engine state, a document ID is in the posting set
of a term exactly when that term is among the tokens of the stored text of
that document (invariant I1). -/
theorem index_membership_iff_token (e : Engine) (h : Reachable e) (t : Str) (d : Int) :
    d ∈ pview e.inverted_index t ↔
      ∃ txt, e.documents.lookup d = some txt ∧ t ∈ tokenize txt :=
  (reachable_inv h).1 t d

/-- C3 (witness): after adding the document `"dog"` with ID 1 to a fresh
engine, ID 1 is in the posting set of term `"dog"`. -/
theorem index_membership_iff_token_witness :
    (1 : Int) ∈ pview (add_document emptyEngine (['d', 'o', 'g'] : Str) (some 1)).2.inverted_index
      (['d', 'o', 'g'] : Str) :=
  (index_membership_iff_token _ (Reachable.addStep _ _ Reachable.init) _ _).mpr
    ⟨['d', 'o', 'g'], by decide, by decide⟩

/-- C4: re-adding under the same explicit ID is a full replace: afterwards the
store maps D to T2 and D sits in exactly the posting sets of T2's tokens (no
residual terms of T). -/
theorem re_add_replaces (e : Engine) (h : Reachable e) (T T2 : Str) (D : Int) :
    (add_document (add_document e T (some D)).2 T2 (some D)).2.documents.lookup D = some T2 ∧
    ∀ t, D ∈ pview (add_document (add_document e T (some D)).2 T2 (some D)).2.inverted_index t ↔
      t ∈ tokenize T2 := by
  have h2 : Reachable (add_document (add_document e T (some D)).2 T2 (some D)).2 :=
    Reachable.addStep _ _ (Reachable.addStep _ _ h)
  have hlook := add_lookup_self (add_document e T (some D)).2 T2 D
  refine ⟨hlook, fun t => ?_⟩
  rw [(reachable_inv h2).1 t D]
  constructor
  · rintro ⟨txt, hl', htok⟩
    rw [hlook] at hl'
    cases hl'
    exact htok
  · intro htok
    exact ⟨T2, hlook, htok⟩

/-- C4 (witness): replace `"a"` by `"b"` under ID 0 on a fresh engine; the
store holds `"b"` and ID 0 is in the posting set of `"a"` only if `"a"`
tokenizes from `"b"` (it does not). -/
theorem re_add_replaces_witness :
    (add_document (add_document emptyEngine (['a'] : Str) (some 0)).2
      (['b'] : Str) (some 0)).2.documents.lookup 0 = some ['b'] ∧
    ((0 : Int) ∈ pview (add_document (add_document emptyEngine (['a'] : Str) (some 0)).2
      (['b'] : Str) (some 0)).2.inverted_index ['a'] ↔ (['a'] : Str) ∈ tokenize ['b']) :=
  ⟨(re_add_replaces _ Reachable.init _ _ _).1,
    (re_add_replaces _ Reachable.init _ _ _).2 ['a']⟩

/-- C5: immediately after `add_document(T, D)`, searching for any single token
of T returns a mapping containing the entry D mapped to T. -/
theorem round_trip (e : Engine) (T : Str) (D : Int) (w : Str) (hw : w ∈ tokenize T) :
    (search (add_document e T (some D)).2 w).1 D = some T := by
  obtain ⟨h0, hlz⟩ := tokenize_shape hw
  have hdet := detect_token h0 hlz
  have hD : D ∈ pview (add_document e T (some D)).2.inverted_index w :=
    add_pview_token e T D hw
  simp only [search, hdet]
  rw [if_neg (by simp : ¬(([w] : List Str) = []))]
  have hev : evalQuery (add_document e T (some D)).2 BoolOp.AND [w] =
      pview (add_document e T (some D)).2.inverted_index w := rfl
  show (if D ∈ evalQuery (add_document e T (some D)).2 BoolOp.AND [w]
    then (add_document e T (some D)).2.documents.lookup D else none) = some T
  rw [hev, if_pos hD]
  exact add_lookup_self e T D

/-- C5 (witness): add `"hi"` as document 0 and search for `"hi"`. -/
theorem round_trip_witness :
    (search (add_document emptyEngine (['h', 'i'] : Str) (some 0)).2 (['h', 'i'] : Str)).1 0 =
      some ['h', 'i'] :=
  round_trip emptyEngine ['h', 'i'] 0 ['h', 'i'] (by decide)

/-- C6: in every reachable state no index entry holds an empty posting set
(invariant I2), and deleting a document whose ID was the sole member of a
term's posting set removes that term's entry from the index entirely. -/
theorem no_empty_posting (e : Engine) (h : Reachable e) :
    (∀ t s, e.inverted_index.lookup t = some s → s ≠ ∅) ∧
    (∀ d txt t, e.documents.lookup d = some txt → t ∈ tokenize txt →
      pview e.inverted_index t = {d} → t ∉ (delete_document e d).2.inverted_index) := by
  refine ⟨(reachable_inv h).2.1, ?_⟩
  intro d txt t hl htok hpv hmem
  obtain ⟨s, hs⟩ := Option.isSome_iff_exists.mp (AList.lookup_isSome.mpr hmem)
  have hne := (delete_inv e d (reachable_inv h)).2.1 t s hs
  have h1 : pview (delete_document e d).2.inverted_index t = s := by
    simp [pview, hs]
  rw [delete_pview e d txt hl t, if_pos htok, hpv, Finset.erase_singleton] at h1
  exact hne h1.symm

/-- C6 (witness): after adding `"dog"` as document 1, no index entry is the
empty set (instantiated at the term `"dog"`). -/
theorem no_empty_posting_witness :
    (add_document emptyEngine (['d', 'o', 'g'] : Str) (some 1)).2.inverted_index.lookup
      (['d', 'o', 'g'] : Str) ≠ some ∅ :=
  fun hc =>
    (no_empty_posting _ (Reachable.addStep _ _ Reachable.init)).1 _ _ hc rfl

/-- C7: deleting an ID that is not a key of the Document Store returns false
and leaves the whole engine state (store, index, counter) unchanged. -/
theorem delete_missing_noop (e : Engine) (d : Int) (h : d ∉ e.documents) :
    delete_document e d = (false, e) := by
  unfold delete_document
  rw [if_neg h]

/-- C7 (witness): deleting ID 7 from the fresh engine is a no-op. -/
theorem delete_missing_noop_witness :
    delete_document emptyEngine 7 = (false, emptyEngine) :=
  delete_missing_noop _ _ (by decide)

/-- C8: for every engine state and term list, the AND-evaluated result set is
a subset of the OR-evaluated result set over the same terms. -/
theorem and_subset_or (e : Engine) (terms : List Str) :
    evalQuery e BoolOp.AND terms ⊆ evalQuery e BoolOp.OR terms := by
  cases terms with
  | nil => exact Finset.Subset.refl _
  | cons t0 rest =>
    show rest.foldl (fun acc t => acc ∩ pview e.inverted_index t) (pview e.inverted_index t0) ⊆
      rest.foldl (fun acc t => acc ∪ pview e.inverted_index t) (pview e.inverted_index t0)
    exact (foldl_inter_sub e rest _).trans (foldl_union_sup e rest _)

/-- C9: search is read-only: the document store, the inverted index (every
posting set included) and the auto-ID counter are unchanged by any query. -/
theorem search_readonly (e : Engine) (q : Str) :
    (search e q).2.documents = e.documents ∧
    (∀ t, (search e q).2.inverted_index.lookup t = e.inverted_index.lookup t) ∧
    (search e q).2.next_doc_id = e.next_doc_id := by
  rw [search_state]
  exact ⟨rfl, fun t => rfl, rfl⟩

/-- C10: in every reachable state every key of the inverted index is a
non-empty string of lowercase ASCII letters; hence any string containing a
character outside `a`-`z` (a space, digit, uppercase letter or punctuation)
is never an index key. -/
theorem index_keys_shape (e : Engine) (h : Reachable e) :
    (∀ t, t ∈ e.inverted_index → t ≠ [] ∧ ∀ c ∈ t, 97 ≤ c.toNat ∧ c.toNat ≤ 122) ∧
    (∀ seg : Str, (∃ c ∈ seg, ¬(97 ≤ c.toNat ∧ c.toNat ≤ 122)) → seg ∉ e.inverted_index) := by
  have hk := (reachable_inv h).2.2
  constructor
  · intro t ht
    obtain ⟨h1, h2⟩ := hk t ht
    exact ⟨h1, fun c hc => isLowerAZ_iff.mp (h2 c hc)⟩
  · rintro seg ⟨c, hc, hbad⟩ hmem
    exact hbad (isLowerAZ_iff.mp ((hk seg hmem).2 c hc))

/-- C10 (witness): the multi-word segment `"a b"` (contains a space) is not a
key of the index after adding `"dog"` as document 1. -/
theorem index_keys_shape_witness :
    (['a', ' ', 'b'] : Str) ∉
      (add_document emptyEngine (['d', 'o', 'g'] : Str) (some 1)).2.inverted_index :=
  (index_keys_shape _ (Reachable.addStep _ _ Reachable.init)).2 ['a', ' ', 'b']
    ⟨' ', by decide, by decide⟩
